import Mathlib

/-!
Verification of the Market Scenario Generator repository.

The repository ships three README documents and the React dashboard
sources (`src/frontend/src/App.jsx` and the two `MarketScenarioGenerator`
dashboard variants).  The Python simulation engine that the READMEs and
the spec describe (`generative_model.py`, `gmm_model.py`, `ewma_vol.py`,
`correlation.py`, `main.py`) is not part of the checked-in sources, so
the risk-statistics, sampling, extreme-scenario and path-construction
operations are modelled from the spec, while the dashboard computations
(`histogramData`, `CustomTooltip`, `runSimulation`) are embedded
directly from the JavaScript sources.

All numeric values are embedded as rationals (`ℚ`); the floating
transcendental routines (`exp`, `sqrt`, `ln`) are passed as explicit
function parameters since they are deterministic maps on floats.
-/

namespace MSG

/-- Sample mean of a list of rationals (`sum / length`; `0` on the empty
list, matching the convention `x / 0 = 0` of `ℚ`). -/
def meanQ (xs : List ℚ) : ℚ := xs.sum / xs.length

lemma meanQ_le_of_forall_le {xs : List ℚ} {b : ℚ} (hne : xs ≠ [])
    (h : ∀ x ∈ xs, x ≤ b) : meanQ xs ≤ b := by
  have hlen : 0 < (xs.length : ℚ) := by
    exact_mod_cast List.length_pos.mpr hne
  have hsum : xs.sum ≤ (xs.length : ℚ) * b := by
    have := List.sum_le_card_nsmul xs b h
    simpa [nsmul_eq_mul] using this
  rw [meanQ, div_le_iff hlen]
  linarith

lemma le_meanQ_of_forall_le {xs : List ℚ} {b : ℚ} (hne : xs ≠ [])
    (h : ∀ x ∈ xs, b ≤ x) : b ≤ meanQ xs := by
  have hlen : 0 < (xs.length : ℚ) := by
    exact_mod_cast List.length_pos.mpr hne
  have hsum : (xs.length : ℚ) * b ≤ xs.sum := by
    have := List.card_nsmul_le_sum xs b h
    simpa [nsmul_eq_mul] using this
  rw [meanQ, le_div_iff hlen]
  linarith

/-- Ascending sort of a return vector (the order statistics used by the
percentile computation). -/
def sortQ (xs : List ℚ) : List ℚ := List.insertionSort (· ≤ ·) xs

/-- Modelled from the spec: the percentile of a return distribution with
linear interpolation between order statistics for non-integer rank
(numpy's default percentile method, §4.5 of the spec; the engine source
that computes it is not under `src/`).  For a sorted vector `s` of
length `n` the rank is `p / 100 * (n - 1)`; the result interpolates
between the order statistics at `⌊rank⌋` and `⌊rank⌋ + 1`. -/
def percentile (xs : List ℚ) (p : ℚ) : ℚ :=
  let s := sortQ xs
  if s.length = 0 then 0
  else
    let rank : ℚ := p / 100 * ((s.length : ℚ) - 1)
    let i : ℕ := (⌊rank⌋).toNat
    let lo := s.getD i 0
    let hi := s.getD (i + 1) lo
    lo + (rank - (i : ℚ)) * (hi - lo)

/-- Modelled from the spec: `VaR_95` is the 5th percentile of the
terminal-return distribution (§4.5; the `summarize` source is not under
`src/`). -/
def VaR_95 (xs : List ℚ) : ℚ := percentile xs 5

/-- Modelled from the spec: `CVaR_95` is the mean of all terminal
returns at or below the `VaR_95` threshold (§4.5; the `summarize`
source is not under `src/`). -/
def CVaR_95 (xs : List ℚ) : ℚ :=
  meanQ (xs.filter (fun x => decide (x ≤ VaR_95 xs)))

lemma sortQ_length (xs : List ℚ) : (sortQ xs).length = xs.length :=
  (List.perm_insertionSort _ xs).length_eq

lemma sortQ_sorted (xs : List ℚ) : (sortQ xs).Sorted (· ≤ ·) :=
  List.sorted_insertionSort _ xs

/-- The smallest order statistic never exceeds an interpolated
percentile for `0 ≤ p ≤ 100`; in particular the distribution has a
member at or below the percentile. -/
lemma exists_mem_le_percentile (xs : List ℚ) (p : ℚ) (hne : xs ≠ [])
    (h0 : 0 ≤ p) (h100 : p ≤ 100) : ∃ m ∈ xs, m ≤ percentile xs p := by
  set s := sortQ xs with hs
  have hslen : s.length = xs.length := sortQ_length xs
  have hpos : 0 < s.length := by
    rw [hslen]; exact List.length_pos.mpr hne
  have hlq : (1 : ℚ) ≤ (s.length : ℚ) := by exact_mod_cast hpos
  have hsort : s.Sorted (· ≤ ·) := sortQ_sorted xs
  set rank : ℚ := p / 100 * ((s.length : ℚ) - 1) with hrank
  have hrank0 : 0 ≤ rank := by
    apply mul_nonneg (div_nonneg h0 (by norm_num))
    linarith
  have hrank1 : rank ≤ (s.length : ℚ) - 1 := by
    have hp1 : p / 100 ≤ 1 := by linarith [(div_le_one (show (0:ℚ) < 100 by norm_num)).mpr h100]
    calc rank ≤ 1 * ((s.length : ℚ) - 1) := by
              apply mul_le_mul_of_nonneg_right hp1; linarith
      _ = (s.length : ℚ) - 1 := one_mul _
  set i : ℕ := (⌊rank⌋).toNat with hi
  have hcasti : (i : ℚ) ≤ rank := by
    have h1 : (0 : ℤ) ≤ ⌊rank⌋ := Int.floor_nonneg.mpr hrank0
    have h2 : ((⌊rank⌋).toNat : ℤ) = ⌊rank⌋ := Int.toNat_of_nonneg h1
    have h3 : ((i : ℤ) : ℚ) ≤ rank := by
      rw [hi, h2]; exact Int.floor_le rank
    exact_mod_cast h3
  have hilt : i < s.length := by
    have : (i : ℚ) < (s.length : ℚ) := by linarith
    exact_mod_cast this
  have hfrac : 0 ≤ rank - (i : ℚ) := by linarith
  set lo := s.getD i 0 with hlo
  have hloget : lo = s.get ⟨i, hilt⟩ := by
    rw [hlo]; exact List.getD_eq_get s 0 hilt
  set hi2 := s.getD (i + 1) lo with hhi2
  have hlohi : lo ≤ hi2 := by
    by_cases hcase : i + 1 < s.length
    · have : hi2 = s.get ⟨i + 1, hcase⟩ := by
        rw [hhi2]; exact List.getD_eq_get s lo hcase
      rw [this, hloget]
      exact hsort.rel_get_of_le (by simp [Fin.mk_le_mk])
    · have : hi2 = lo := by
        rw [hhi2]; exact List.getD_eq_default s lo (by omega)
      rw [this]
  have hres : percentile xs p = lo + (rank - (i : ℚ)) * (hi2 - lo) := by
    rw [percentile]
    simp only [← hs, if_neg (Nat.pos_iff_ne_zero.mp hpos)]
  have hlole : lo ≤ percentile xs p := by
    rw [hres]
    nlinarith
  refine ⟨s.get ⟨0, hpos⟩, ?_, ?_⟩
  · exact (List.perm_insertionSort _ xs).subset (List.get_mem s 0 hpos)
  · calc s.get ⟨0, hpos⟩ ≤ s.get ⟨i, hilt⟩ :=
          hsort.rel_get_of_le (by simp [Fin.mk_le_mk])
      _ = lo := hloget.symm
      _ ≤ percentile xs p := hlole

/-- C1: for every non-degenerate (in particular, every nonempty)
terminal-return distribution, the computed `CVaR_95` — the mean of all
terminal returns at or below the `VaR_95` threshold — is at most the
computed `VaR_95`, the 5th percentile of the distribution. -/
theorem cvar95_le_var95 (xs : List ℚ) (hne : xs ≠ []) :
    CVaR_95 xs ≤ VaR_95 xs := by
  obtain ⟨m, hm, hmle⟩ :=
    exists_mem_le_percentile xs 5 hne (by norm_num) (by norm_num)
  have hmem : m ∈ xs.filter (fun x => decide (x ≤ VaR_95 xs)) := by
    rw [List.mem_filter]
    exact ⟨hm, by simpa [VaR_95] using hmle⟩
  have hne2 : xs.filter (fun x => decide (x ≤ VaR_95 xs)) ≠ [] := by
    intro h
    rw [h] at hmem
    exact (List.not_mem_nil m) hmem
  apply meanQ_le_of_forall_le hne2
  intro x hx
  have := (List.mem_filter.mp hx).2
  simpa using this

/-- Witness for C1 at the concrete distribution `[-2, -1, 0, 1, 2]`. -/
theorem cvar95_le_var95_witness :
    ([(-2 : ℚ), -1, 0, 1, 2] ≠ []) ∧
      CVaR_95 [(-2 : ℚ), -1, 0, 1, 2] ≤ VaR_95 [(-2 : ℚ), -1, 0, 1, 2] :=
  ⟨by decide, cvar95_le_var95 _ (by decide)⟩

/-! ## Histogram bucketing (src/unnamed/part_004 lines 105-115 and
src/unnamed/part_005 lines 59-74, `histogramData`) -/

/-- JavaScript `Math.round` on a finite value: round half toward
positive infinity, i.e. `⌊x + 1/2⌋`. -/
def jsRound (x : ℚ) : ℤ := ⌊x + 1 / 2⌋

/-- The histogram bucket map from `histogramData`:
`Math.round(ret * 20) / 20`. -/
def bucket (x : ℚ) : ℚ := (jsRound (x * 20) : ℚ) / 20

/-- One step of the `reduce` accumulator of `histogramData`:
`acc[bucket] = (acc[bucket] || 0) + 1` on an insertion-ordered
string-keyed object, embedded as an association list. -/
def addToBucket : List (ℚ × ℕ) → ℚ → List (ℚ × ℕ)
  | [], b => [(b, 1)]
  | (k, c) :: rest, b =>
    if k = b then (k, c + 1) :: rest else (k, c) :: addToBucket rest b

/-- `histogramData` from the dashboard sources: bucket every final
return, accumulate counts per bucket, then sort the `(return, count)`
entries by the `return` field (`.sort((a, b) => a.return - b.return)`). -/
def histogramData (finalReturns : List ℚ) : List (ℚ × ℕ) :=
  List.insertionSort (fun a b => a.1 ≤ b.1)
    ((finalReturns.map bucket).foldl addToBucket [])

instance : IsTotal (ℚ × ℕ) (fun a b => a.1 ≤ b.1) :=
  ⟨fun a b => le_total a.1 b.1⟩

instance : IsTrans (ℚ × ℕ) (fun a b => a.1 ≤ b.1) :=
  ⟨fun _ _ _ h h2 => le_trans h h2⟩

lemma addToBucket_snd_sum (acc : List (ℚ × ℕ)) (b : ℚ) :
    ((addToBucket acc b).map Prod.snd).sum = (acc.map Prod.snd).sum + 1 := by
  induction acc with
  | nil => simp [addToBucket]
  | cons hd tl ih =>
    obtain ⟨k, c⟩ := hd
    by_cases h : k = b
    · simp only [addToBucket, if_pos h, List.map_cons, List.sum_cons]
      omega
    · simp only [addToBucket, if_neg h, List.map_cons, List.sum_cons, ih]
      omega

lemma foldl_addToBucket_snd_sum (l : List ℚ) (acc : List (ℚ × ℕ)) :
    ((l.foldl addToBucket acc).map Prod.snd).sum
      = (acc.map Prod.snd).sum + l.length := by
  induction l generalizing acc with
  | nil => simp
  | cons hd tl ih =>
    simp only [List.foldl_cons, ih, addToBucket_snd_sum, List.length_cons]
    omega

lemma addToBucket_fst (acc : List (ℚ × ℕ)) (b : ℚ) :
    (addToBucket acc b).map Prod.fst =
      if b ∈ acc.map Prod.fst then acc.map Prod.fst
      else acc.map Prod.fst ++ [b] := by
  induction acc with
  | nil => simp [addToBucket]
  | cons hd tl ih =>
    obtain ⟨k, c⟩ := hd
    by_cases h : k = b
    · simp [addToBucket, h]
    · have hne : ¬ b = k := fun hb => h hb.symm
      by_cases h2 : b ∈ tl.map Prod.fst
      · simp [addToBucket, h, ih, h2, hne]
      · simp [addToBucket, h, ih, h2, hne]

lemma addToBucket_fst_nodup (acc : List (ℚ × ℕ)) (b : ℚ)
    (h : (acc.map Prod.fst).Nodup) :
    ((addToBucket acc b).map Prod.fst).Nodup := by
  rw [addToBucket_fst]
  by_cases h2 : b ∈ acc.map Prod.fst
  · rwa [if_pos h2]
  · rw [if_neg h2, List.nodup_append]
    refine ⟨h, by simp, ?_⟩
    intro a ha hb
    rw [List.mem_singleton] at hb
    subst hb
    exact h2 ha

lemma foldl_addToBucket_fst_nodup (l : List ℚ) (acc : List (ℚ × ℕ))
    (h : (acc.map Prod.fst).Nodup) :
    ((l.foldl addToBucket acc).map Prod.fst).Nodup := by
  induction l generalizing acc with
  | nil => exact h
  | cons hd tl ih => exact ih _ (addToBucket_fst_nodup acc hd h)

/-- C8: the histogram derived from a `final_returns` array is sorted in
strictly increasing order of its `return` field, and its bucket counts
sum to the number of final returns (each terminal return lands in
exactly one bucket). -/
theorem histogram_strictly_sorted_and_counts (xs : List ℚ) :
    List.Pairwise (fun a b : ℚ × ℕ => a.1 < b.1) (histogramData xs) ∧
      ((histogramData xs).map Prod.snd).sum = xs.length := by
  have hperm : List.Perm (histogramData xs)
      ((xs.map bucket).foldl addToBucket []) :=
    List.perm_insertionSort _ _
  constructor
  · have hsorted : (histogramData xs).Sorted (fun a b => a.1 ≤ b.1) :=
      List.sorted_insertionSort _ _
    have hnodup0 : (((xs.map bucket).foldl addToBucket []).map Prod.fst).Nodup :=
      foldl_addToBucket_fst_nodup _ _ (by simp)
    have hnodup : ((histogramData xs).map Prod.fst).Nodup :=
      (hperm.map Prod.fst).nodup_iff.mpr hnodup0
    have hne : List.Pairwise (fun a b : ℚ × ℕ => a.1 ≠ b.1) (histogramData xs) := by
      rw [List.Nodup, List.pairwise_map] at hnodup
      exact hnodup
    exact (hsorted.and hne).imp fun h => lt_of_le_of_ne h.1 h.2
  · have h1 : ((histogramData xs).map Prod.snd).sum
        = (((xs.map bucket).foldl addToBucket []).map Prod.snd).sum :=
      (hperm.map Prod.snd).sum_eq
    rw [h1, foldl_addToBucket_snd_sum]
    simp

/-- C9: the bucket map `r ↦ Math.round(r * 20) / 20` is idempotent, and
every bucket label it produces is an exact integer multiple of `0.05`. -/
theorem bucket_idem_and_multiple_of_five_hundredths (x : ℚ) :
    bucket (bucket x) = bucket x ∧
      ∃ k : ℤ, bucket x = (k : ℚ) * (5 / 100) := by
  have hfloor : ∀ m : ℤ, ⌊(m : ℚ) + 1 / 2⌋ = m := by
    intro m
    rw [add_comm, Int.floor_add_int]
    norm_num
  constructor
  · show bucket ((jsRound (x * 20) : ℚ) / 20) = (jsRound (x * 20) : ℚ) / 20
    rw [bucket, jsRound]
    rw [div_mul_cancel₀ _ (by norm_num : (20 : ℚ) ≠ 0)]
    rw [hfloor]
  · refine ⟨jsRound (x * 20), ?_⟩
    rw [bucket]
    ring

/-! ## CustomTooltip (src/unnamed/part_004 lines 16-52) -/

/-- `Math.max(...prices)` over a payload known to be nonempty (the
component guards on `payload.length`); `0` is an unused placeholder for
the empty case. -/
def jsMaxList : List ℚ → ℚ
  | [] => 0
  | x :: xs => xs.foldl max x

/-- `Math.min(...prices)` over a nonempty payload. -/
def jsMinList : List ℚ → ℚ
  | [] => 0
  | x :: xs => xs.foldl min x

/-- `CustomTooltip` from src/unnamed/part_004: when `active` and the
payload is nonempty it renders High (`Math.max`), Avg (arithmetic mean
via `reduce` and division by length) and Low (`Math.min`) of the
payload values; otherwise it renders nothing. -/
def customTooltip (active : Bool) (payload : List ℚ) : Option (ℚ × ℚ × ℚ) :=
  if active = true ∧ payload ≠ [] then
    some (jsMaxList payload, meanQ payload, jsMinList payload)
  else none

lemma foldl_max_bounds (l : List ℚ) (a : ℚ) :
    a ≤ l.foldl max a ∧ ∀ x ∈ l, x ≤ l.foldl max a := by
  induction l generalizing a with
  | nil => simp
  | cons hd tl ih =>
    refine ⟨le_trans (le_max_left a hd) (ih (max a hd)).1, ?_⟩
    intro x hx
    rcases List.mem_cons.mp hx with h | h
    · subst h
      exact le_trans (le_max_right a x) (ih (max a x)).1
    · exact (ih (max a hd)).2 x h

lemma foldl_min_bounds (l : List ℚ) (a : ℚ) :
    l.foldl min a ≤ a ∧ ∀ x ∈ l, l.foldl min a ≤ x := by
  induction l generalizing a with
  | nil => simp
  | cons hd tl ih =>
    refine ⟨le_trans (ih (min a hd)).1 (min_le_left a hd), ?_⟩
    intro x hx
    rcases List.mem_cons.mp hx with h | h
    · subst h
      exact le_trans (ih (min a x)).1 (min_le_right a x)
    · exact (ih (min a hd)).2 x h

lemma mem_le_jsMaxList {l : List ℚ} {x : ℚ} (hx : x ∈ l) : x ≤ jsMaxList l := by
  cases l with
  | nil => cases hx
  | cons hd tl =>
    rcases List.mem_cons.mp hx with h | h
    · subst h; exact (foldl_max_bounds tl x).1
    · exact (foldl_max_bounds tl hd).2 x h

lemma jsMinList_le_mem {l : List ℚ} {x : ℚ} (hx : x ∈ l) : jsMinList l ≤ x := by
  cases l with
  | nil => cases hx
  | cons hd tl =>
    rcases List.mem_cons.mp hx with h | h
    · subst h; exact (foldl_min_bounds tl x).1
    · exact (foldl_min_bounds tl hd).2 x h

/-- C10: for every active, nonempty tooltip payload, the Low, Avg and
High values computed by `CustomTooltip` satisfy `Low ≤ Avg ≤ High`,
where Low is the minimum, Avg the arithmetic mean and High the maximum
of the payload values. -/
theorem tooltip_low_le_avg_le_high (active : Bool) (payload : List ℚ)
    (highV avgV lowV : ℚ)
    (h : customTooltip active payload = some (highV, avgV, lowV)) :
    lowV ≤ avgV ∧ avgV ≤ highV := by
  rw [customTooltip] at h
  by_cases hc : active = true ∧ payload ≠ []
  · rw [if_pos hc] at h
    obtain ⟨-, hne⟩ := hc
    have hinj := Option.some.inj h
    obtain ⟨h1, h2, h3⟩ : jsMaxList payload = highV ∧ meanQ payload = avgV ∧
        jsMinList payload = lowV := by
      simpa [Prod.ext_iff] using hinj
    subst h1; subst h2; subst h3
    constructor
    · exact le_meanQ_of_forall_le hne fun x hx => jsMinList_le_mem hx
    · exact meanQ_le_of_forall_le hne fun x hx => mem_le_jsMaxList hx
  · rw [if_neg hc] at h
    cases h

/-- Witness for C10 at the concrete payload `[1, 2, 3]`. -/
theorem tooltip_low_le_avg_le_high_witness :
    customTooltip true [(1 : ℚ), 2, 3] = some (3, 2, 1) ∧
      (1 : ℚ) ≤ 2 ∧ (2 : ℚ) ≤ 3 := by
  have h : customTooltip true [(1 : ℚ), 2, 3] = some (3, 2, 1) := by
    rw [customTooltip, if_pos ⟨rfl, by simp⟩]
    norm_num [meanQ, jsMaxList, jsMinList, List.foldl]
  exact ⟨h, (tooltip_low_le_avg_le_high true _ 3 2 1 h).1,
    (tooltip_low_le_avg_le_high true _ 3 2 1 h).2⟩

/-! ## Risk-statistics result object (C3) -/

/-- Sample variance (ddof 0, numpy default) of a return vector. -/
def varQ (xs : List ℚ) : ℚ := meanQ (xs.map (fun x => (x - meanQ xs) ^ 2))

/-- Modelled from the spec: `prob_loss` is the fraction of terminal
returns below zero (§4.5; the `summarize` source is not under `src/`). -/
def probLoss (xs : List ℚ) : ℚ :=
  ((xs.filter (fun x => decide (x < 0))).length : ℚ) / xs.length

/-- Field access on a serialized JSON object, embedded as an
association list of string keys. -/
def jlookup : List (String × ℚ) → String → Option ℚ
  | [], _ => none
  | (k, v) :: rest, key => if k = key then some v else jlookup rest key

/-- Modelled from the spec: the `risk_stats` object of a single-asset
run (§4.5 `summarize`; the engine source is not under `src/`).  The
serialized field names follow the dashboard consumers in `src`, which
read `risk_stats.mean`, `risk_stats.vol`, `risk_stats.VaR_95`,
`risk_stats.CVaR_95` and `risk_stats.prob_loss`; `sqrtF` is the
floating square-root routine, so the `vol` field holds the sample
standard deviation. -/
def riskStatsJson (sqrtF : ℚ → ℚ) (xs : List ℚ) : List (String × ℚ) :=
  [("mean", meanQ xs), ("vol", sqrtF (varQ xs)), ("VaR_95", VaR_95 xs),
   ("CVaR_95", CVaR_95 xs), ("prob_loss", probLoss xs)]

/-- The Volatility stat card of the dashboards reads
`results.risk_stats.vol` (src/unnamed/part_004 line 382,
src/unnamed/part_005 lines 271 and 698). -/
def readVolatilityCard (riskStats : List (String × ℚ)) : Option ℚ :=
  jlookup riskStats "vol"

/-- Identity on `ℚ`, used as a concrete stand-in for the floating
square-root routine in closed instances. -/
def qid : ℚ → ℚ := fun x => x

/-- C3 counterexample: the risk-statistics object served to the caller
has no field named `volatility`; the dashboards' Volatility stat card
(which renders an actual number) reads the field named `vol` instead. -/
theorem risk_stats_volatility_key_cex :
    jlookup (riskStatsJson qid [(1 : ℚ), 2, 3]) "volatility" = none ∧
      readVolatilityCard (riskStatsJson qid [(1 : ℚ), 2, 3])
        = some (qid (varQ [(1 : ℚ), 2, 3])) := by
  constructor <;> simp [riskStatsJson, jlookup, readVolatilityCard, qid]

/-- C3 as amended: every successful single-asset run's `risk_stats`
object has fields named `mean`, `vol`, `VaR_95`, `CVaR_95` and
`prob_loss` (not `volatility`), where `mean` is the sample mean of the
terminal-return vector and `vol` is its sample standard deviation (the
square root of the sample variance). -/
theorem risk_stats_field_names (sqrtF : ℚ → ℚ) (xs : List ℚ) :
    jlookup (riskStatsJson sqrtF xs) "mean" = some (meanQ xs) ∧
      jlookup (riskStatsJson sqrtF xs) "vol" = some (sqrtF (varQ xs)) ∧
      jlookup (riskStatsJson sqrtF xs) "VaR_95" = some (VaR_95 xs) ∧
      jlookup (riskStatsJson sqrtF xs) "CVaR_95" = some (CVaR_95 xs) ∧
      jlookup (riskStatsJson sqrtF xs) "prob_loss" = some (probLoss xs) ∧
      jlookup (riskStatsJson sqrtF xs) "volatility" = none := by
  refine ⟨?_, ?_, ?_, ?_, ?_, ?_⟩ <;> simp [riskStatsJson, jlookup]

/-! ## Extreme scenarios (C7) -/

/-- Modelled from the spec: the auxiliary `extremeScenarios` operation
(§4.5; its engine source is not under `src/` — the only extremes code
checked in is hard-coded mock rows that compute nothing) reports the
returns at percentiles {1, 25, 50, 75, 99}, labeled as the worst,
bearish, base, bullish and best cases respectively. -/
def extremeScenarios (xs : List ℚ) : List (String × ℚ) :=
  [("worst", percentile xs 1),
   ("bearish", percentile xs 25),
   ("base", percentile xs 50),
   ("bullish", percentile xs 75),
   ("best", percentile xs 99)]

/-- Linear interpolation between order statistics is monotone in the
requested percentile: a lower percentile of the same distribution never
exceeds a higher one. -/
lemma percentile_mono (xs : List ℚ) {p q : ℚ} (hp0 : 0 ≤ p) (hpq : p ≤ q)
    (hq100 : q ≤ 100) : percentile xs p ≤ percentile xs q := by
  set s := sortQ xs with hs
  by_cases hn : s.length = 0
  · rw [percentile, percentile]
    simp only [← hs, if_pos hn, le_refl]
  · have hpos : 0 < s.length := Nat.pos_of_ne_zero hn
    have hlq : (1 : ℚ) ≤ (s.length : ℚ) := by exact_mod_cast hpos
    have hsort : s.Sorted (· ≤ ·) := sortQ_sorted xs
    have hq0 : 0 ≤ q := le_trans hp0 hpq
    set rp : ℚ := p / 100 * ((s.length : ℚ) - 1) with hrp
    set rq : ℚ := q / 100 * ((s.length : ℚ) - 1) with hrq
    have hrp0 : 0 ≤ rp := by
      apply mul_nonneg (div_nonneg hp0 (by norm_num))
      linarith
    have hrq0 : 0 ≤ rq := by
      apply mul_nonneg (div_nonneg hq0 (by norm_num))
      linarith
    have hrpq : rp ≤ rq := by
      apply mul_le_mul_of_nonneg_right _ (by linarith)
      linarith
    have hrq1 : rq ≤ (s.length : ℚ) - 1 := by
      have hq1 : q / 100 ≤ 1 := by
        linarith [(div_le_one (show (0 : ℚ) < 100 by norm_num)).mpr hq100]
      calc rq ≤ 1 * ((s.length : ℚ) - 1) := by
              apply mul_le_mul_of_nonneg_right hq1; linarith
        _ = (s.length : ℚ) - 1 := one_mul _
    set i : ℕ := (⌊rp⌋).toNat with hi
    set j : ℕ := (⌊rq⌋).toNat with hj
    have hieq : ((i : ℕ) : ℤ) = ⌊rp⌋ := by
      rw [hi]; exact Int.toNat_of_nonneg (Int.floor_nonneg.mpr hrp0)
    have hjeq : ((j : ℕ) : ℤ) = ⌊rq⌋ := by
      rw [hj]; exact Int.toNat_of_nonneg (Int.floor_nonneg.mpr hrq0)
    have hcasti : (i : ℚ) ≤ rp := by
      have h3 : ((i : ℤ) : ℚ) ≤ rp := by rw [hieq]; exact Int.floor_le rp
      exact_mod_cast h3
    have hcastj : (j : ℚ) ≤ rq := by
      have h3 : ((j : ℤ) : ℚ) ≤ rq := by rw [hjeq]; exact Int.floor_le rq
      exact_mod_cast h3
    have hilt : i < s.length := by
      have : (i : ℚ) < (s.length : ℚ) := by linarith
      exact_mod_cast this
    have hjlt : j < s.length := by
      have : (j : ℚ) < (s.length : ℚ) := by linarith
      exact_mod_cast this
    have hij : i ≤ j := by
      have hfl : ⌊rp⌋ ≤ ⌊rq⌋ := Int.floor_le_floor hrpq
      rw [hi, hj]
      exact Int.toNat_le_toNat hfl
    have hfp0 : 0 ≤ rp - (i : ℚ) := by linarith
    have hfq0 : 0 ≤ rq - (j : ℚ) := by linarith
    have hfp1 : rp - (i : ℚ) ≤ 1 := by
      have h1 : rp < (⌊rp⌋ : ℚ) + 1 := Int.lt_floor_add_one rp
      have h2 : ((i : ℚ)) = ((⌊rp⌋ : ℤ) : ℚ) := by exact_mod_cast hieq
      rw [h2]; linarith
    set lop := s.getD i 0 with hlop
    set hip := s.getD (i + 1) lop with hhip
    set loq := s.getD j 0 with hloq
    set hiq := s.getD (j + 1) loq with hhiq
    have hresp : percentile xs p = lop + (rp - (i : ℚ)) * (hip - lop) := by
      rw [percentile]
      simp only [← hs, if_neg hn]
    have hresq : percentile xs q = loq + (rq - (j : ℚ)) * (hiq - loq) := by
      rw [percentile]
      simp only [← hs, if_neg hn]
    have hlophip : lop ≤ hip := by
      by_cases hcase : i + 1 < s.length
      · have h4 : hip = s.get ⟨i + 1, hcase⟩ := by
          rw [hhip]; exact List.getD_eq_get s lop hcase
        have h5 : lop = s.get ⟨i, hilt⟩ := by
          rw [hlop]; exact List.getD_eq_get s 0 hilt
        rw [h4, h5]
        exact hsort.rel_get_of_le (by simp [Fin.mk_le_mk])
      · have h4 : hip = lop := by
          rw [hhip]; exact List.getD_eq_default s lop (by omega)
        rw [h4]
    have hloqhiq : loq ≤ hiq := by
      by_cases hcase : j + 1 < s.length
      · have h4 : hiq = s.get ⟨j + 1, hcase⟩ := by
          rw [hhiq]; exact List.getD_eq_get s loq hcase
        have h5 : loq = s.get ⟨j, hjlt⟩ := by
          rw [hloq]; exact List.getD_eq_get s 0 hjlt
        rw [h4, h5]
        exact hsort.rel_get_of_le (by simp [Fin.mk_le_mk])
      · have h4 : hiq = loq := by
          rw [hhiq]; exact List.getD_eq_default s loq (by omega)
        rw [h4]
    have hq_lower : loq ≤ percentile xs q := by
      rw [hresq]
      nlinarith
    rcases eq_or_lt_of_le hij with heq | hlt
    · have hlo : lop = loq := by rw [hlop, hloq, heq]
      have hhi : hip = hiq := by rw [hhip, hhiq, heq, hlo]
      have hji : (j : ℚ) = (i : ℚ) := by exact_mod_cast heq.symm
      rw [hresp, hresq, ← hlo, ← hhi, hji]
      nlinarith
    · have hp_upper : percentile xs p ≤ hip := by
        rw [hresp]
        nlinarith
      have hi1lt : i + 1 < s.length := by omega
      have h4 : hip = s.get ⟨i + 1, hi1lt⟩ := by
        rw [hhip]; exact List.getD_eq_get s lop hi1lt
      have h5 : loq = s.get ⟨j, hjlt⟩ := by
        rw [hloq]; exact List.getD_eq_get s 0 hjlt
      have h6 : s.get ⟨i + 1, hi1lt⟩ ≤ s.get ⟨j, hjlt⟩ := by
        apply hsort.rel_get_of_le
        simp only [Fin.mk_le_mk]
        omega
      calc percentile xs p ≤ hip := hp_upper
        _ = s.get ⟨i + 1, hi1lt⟩ := h4
        _ ≤ s.get ⟨j, hjlt⟩ := h6
        _ = loq := h5.symm
        _ ≤ percentile xs q := hq_lower

/-- C7: for every terminal-return distribution, `extremeScenarios`
reports the returns at exactly the percentiles {1, 25, 50, 75, 99},
labeled as the worst, bearish, base, bullish and best cases
respectively — in particular the base case is the 50th percentile of
the distribution — and the five reported returns are ordered from
worst to best. -/
theorem extremeScenarios_percentiles (xs : List ℚ) :
    (extremeScenarios xs).map Prod.fst
        = ["worst", "bearish", "base", "bullish", "best"] ∧
      (extremeScenarios xs).map Prod.snd
        = [percentile xs 1, percentile xs 25, percentile xs 50,
           percentile xs 75, percentile xs 99] ∧
      jlookup (extremeScenarios xs) "base" = some (percentile xs 50) ∧
      percentile xs 1 ≤ percentile xs 25 ∧
      percentile xs 25 ≤ percentile xs 50 ∧
      percentile xs 50 ≤ percentile xs 75 ∧
      percentile xs 75 ≤ percentile xs 99 := by
  refine ⟨rfl, rfl, by simp [extremeScenarios, jlookup], ?_, ?_, ?_, ?_⟩ <;>
    exact percentile_mono xs (by norm_num) (by norm_num) (by norm_num)

/-! ## Path construction (C4) -/

/-- Cumulative sums along a log-return path: entry `t` is the sum of
the first `t + 1` returns (numpy `cumsum`). -/
def cumsum (xs : List ℚ) : List ℚ :=
  (List.range xs.length).map (fun t => (xs.take (t + 1)).sum)

/-- Modelled from the spec: `buildPrices` (§4.4; the PathConstructor
source is not under `src/`) computes `P_t = P_0 · exp(Σ_{i≤t} r_i)`
cumulatively along the horizon axis, independently per path; `expF` is
the floating exponential.  Entries of `ℚ` are always finite, matching
the claim's finiteness precondition. -/
def buildPrices (expF : ℚ → ℚ) (paths : List (List ℚ)) (startPrice : ℚ) :
    List (List ℚ) :=
  paths.map (fun row => (cumsum row).map (fun c => startPrice * expF c))

lemma cumsum_length (xs : List ℚ) : (cumsum xs).length = xs.length := by
  simp [cumsum]

lemma cumsum_getD (xs : List ℚ) (t : ℕ) (ht : t < xs.length) :
    (cumsum xs).getD t 0 = (xs.take (t + 1)).sum := by
  rw [cumsum, List.getD_eq_getElem _ _ (by simpa using ht)]
  simp

lemma map_getD_lt (f : ℚ → ℚ) (l : List ℚ) (t : ℕ) (d : ℚ)
    (ht : t < l.length) : (l.map f).getD t d = f (l.getD t d) := by
  rw [List.getD_eq_getElem _ _ (by simpa using ht),
    List.getD_eq_getElem _ _ ht]
  simp

/-- C4: for every log-return path matrix and every strictly positive
start price, `buildPrices` returns exactly
`price[p][t] = P_0 * exp(cumsum(logReturns[p])[t])` — the start price
times the exponential of the cumulative sum of the first `t + 1` log
returns — for every path `p` and day `t`, and (whenever the exponential
routine is positive-valued, as the real exponential is) every returned
price is strictly positive. -/
theorem buildPrices_exact_and_positive (expF : ℚ → ℚ)
    (paths : List (List ℚ)) (startPrice : ℚ)
    (hexp : ∀ x, 0 < expF x) (hP0 : 0 < startPrice) :
    (∀ p t : ℕ, p < paths.length → t < (paths.getD p []).length →
        ((buildPrices expF paths startPrice).getD p []).getD t 0
          = startPrice * expF (((paths.getD p []).take (t + 1)).sum)) ∧
      ∀ row ∈ buildPrices expF paths startPrice, ∀ x ∈ row, 0 < x := by
  constructor
  · intro p t hp ht
    have h1 : (buildPrices expF paths startPrice).getD p []
        = (cumsum (paths.getD p [])).map (fun c => startPrice * expF c) := by
      rw [buildPrices, List.getD_eq_getElem _ _ (by simpa using hp),
        List.getD_eq_getElem _ _ hp]
      simp
    have ht2 : t < (cumsum (paths.getD p [])).length := by
      rw [cumsum_length]; exact ht
    rw [h1, map_getD_lt _ _ _ _ ht2, cumsum_getD _ _ ht]
  · intro row hrow x hx
    obtain ⟨r0, hr0, rfl⟩ := List.mem_map.mp hrow
    obtain ⟨c, hc, rfl⟩ := List.mem_map.mp hx
    exact mul_pos hP0 (hexp c)

/-- A concrete strictly positive rational function standing in for the
floating exponential in closed instances. -/
def expQ : ℚ → ℚ := fun x => 1 / (1 + x ^ 2)

lemma expQ_pos (x : ℚ) : 0 < expQ x := by
  rw [expQ]
  positivity

/-- Witness for C4 at the one-path matrix `[[1, 2]]` with start price
`100`: the day-1 price equals `100 * exp(1 + 2)` and is positive. -/
theorem buildPrices_witness :
    ((buildPrices expQ [[(1 : ℚ), 2]] 100).getD 0 []).getD 1 0
        = 100 * expQ ((([(1 : ℚ), 2]).take 2).sum) ∧
      0 < ((buildPrices expQ [[(1 : ℚ), 2]] 100).getD 0 []).getD 1 0 := by
  have h := (buildPrices_exact_and_positive expQ [[(1 : ℚ), 2]] 100
    expQ_pos (by norm_num)).1 0 1 (by norm_num) (by norm_num [List.getD])
  have h2 : ((buildPrices expQ [[(1 : ℚ), 2]] 100).getD 0 []).getD 1 0
      = 100 * expQ ((([(1 : ℚ), 2]).take 2).sum) := by
    simpa [List.getD] using h
  exact ⟨h2, by rw [h2]; have := expQ_pos ((([(1 : ℚ), 2]).take 2).sum); positivity⟩

/-! ## Scenario pipeline (C2, C5) -/

/-- One 32-bit linear congruential step (Numerical Recipes constants):
the deterministic PRNG underlying the modelled sampler. -/
def lcg (s : ℕ) : ℕ := (1664525 * s + 1013904223) % 4294967296

/-- Modelled from the spec: draw `i` of the random stream seeded with
`seed` (§4.2: "all random draws for a given run must be reproducible
given the same rngSeed ... deterministic dependency on seed only, no
hidden global state").  A deterministic rational in `[-1/2, 1/2)`
standing in for a normal variate; none of the claims settled here
depend on the draw's distribution. -/
def rngDraw (seed i : ℕ) : ℚ :=
  (lcg (lcg (seed + i)) : ℚ) / 4294967296 - 1 / 2

/-- Modelled from the spec: the Gaussian `sample` operation (§4.2) —
an `[numPaths, horizon]` matrix of log-returns, cell `(p, t)` drawn
from the seeded stream at index `p * horizon + t` and scaled by the
fitted mean and standard deviation. -/
def sampleGaussianPaths (mu sigma : ℚ) (horizon numPaths seed : ℕ) :
    List (List ℚ) :=
  (List.range numPaths).map fun p =>
    (List.range horizon).map fun t =>
      mu + sigma * rngDraw seed (p * horizon + t)

/-- Modelled from the spec: the return preprocessor (§4.1),
`r_t = ln(P_t / P_{t-1})` over consecutive pairs; `lnF` is the
floating logarithm. -/
def logReturnsF (lnF : ℚ → ℚ) : List ℚ → List ℚ
  | p0 :: p1 :: rest => lnF (p1 / p0) :: logReturnsF lnF (p1 :: rest)
  | _ => []

/-- The deterministic floating transcendental routines threaded through
the pipeline. -/
structure FloatOps where
  expF : ℚ → ℚ
  lnF : ℚ → ℚ
  sqrtF : ℚ → ℚ

/-- A single-asset run request: the externally resolved price history
plus the recognized options (§6). -/
structure ScenarioConfig where
  prices : List ℚ
  horizon : ℕ
  numPaths : ℕ
  model : String

/-- The single-asset result object
`{paths_sample, final_returns, risk_stats, start_price, model}` (§6). -/
structure ScenarioResult where
  paths_sample : List (List ℚ)
  final_returns : List ℚ
  risk_stats : List (String × ℚ)
  start_price : ℚ
  model : String

/-- Modelled from the spec: the single-asset orchestrator `runScenario`
(§4.6, §6; the engine source is not under `src/`): preprocess, fit,
sample from the explicit seed, construct paths, summarize.  The `world`
argument models whatever ambient persisted state an implementation
could see; the spec requires the result to be a pure function of the
config and the explicit seed only, so the body never reads it.
Sampling is modelled for the Gaussian variant; per §4.2 the
seed-determinism is common to all model variants. -/
def runScenario (ops : FloatOps) (world : ℕ) (cfg : ScenarioConfig)
    (seed : ℕ) : Option ScenarioResult :=
  if cfg.horizon = 0 ∨ cfg.numPaths = 0 ∨ cfg.prices.length < 2 then none
  else
    let rets := logReturnsF ops.lnF cfg.prices
    let startP := cfg.prices.getLastD 0
    let logPaths := sampleGaussianPaths (meanQ rets) (ops.sqrtF (varQ rets))
      cfg.horizon cfg.numPaths seed
    let finals := logPaths.map (fun row => ops.expF row.sum - 1)
    some { paths_sample := buildPrices ops.expF logPaths startP,
           final_returns := finals,
           risk_stats := riskStatsJson ops.sqrtF finals,
           start_price := startP,
           model := cfg.model }

/-- A portfolio run request: per-asset price histories, portfolio
weights, and the simulation options (§6). -/
structure PortfolioConfig where
  assetPrices : List (List ℚ)
  weights : List ℚ
  horizon : ℕ
  numPaths : ℕ

/-- The portfolio result object (§6), restricted to the fields the
claims mention. -/
structure PortfolioResult where
  portfolio_paths_sample : List (List ℚ)
  final_returns : List ℚ
  portfolio_stats : List (String × ℚ)

/-- Modelled from the spec: `runPortfolioScenario` (§6, §4.4; the
engine source is not under `src/`): weights are validated to sum to 1
within tolerance before any computation, each asset is fitted and
sampled from a deterministic sub-stream of the explicit seed
(`seed + asset index`, §5), the per-asset log returns are combined with
the fixed weights, and the combined paths are exponentiated.  As in
`runScenario`, `world` is ambient state the body never reads. -/
def runPortfolioScenario (ops : FloatOps) (world : ℕ)
    (cfg : PortfolioConfig) (seed : ℕ) : Option PortfolioResult :=
  if cfg.horizon = 0 ∨ cfg.numPaths = 0 ∨
      cfg.weights.length ≠ cfg.assetPrices.length ∨
      ¬ |cfg.weights.sum - 1| ≤ 1 / 1000 then none
  else
    let perAsset := (List.range cfg.assetPrices.length).map fun a =>
      let rets := logReturnsF ops.lnF (cfg.assetPrices.getD a [])
      sampleGaussianPaths (meanQ rets) (ops.sqrtF (varQ rets))
        cfg.horizon cfg.numPaths (seed + a)
    let combined := (List.range cfg.numPaths).map fun p =>
      (List.range cfg.horizon).map fun t =>
        ((List.range cfg.assetPrices.length).map fun a =>
          cfg.weights.getD a 0 * (((perAsset.getD a []).getD p []).getD t 0)).sum
    let finals := combined.map (fun row => ops.expF row.sum - 1)
    some { portfolio_paths_sample := buildPrices ops.expF combined 1,
           final_returns := finals,
           portfolio_stats := riskStatsJson ops.sqrtF finals }

/-- C2: `runScenario` and `runPortfolioScenario` are pure functions of
their input plus the explicit seed: identical configs and identical
seeds produce bit-identical results (in particular bit-identical
`ScenarioPaths`), and the ambient persisted state (`w1` versus `w2`)
never influences the result. -/
theorem runs_pure_and_reproducible (ops : FloatOps) (w1 w2 : ℕ)
    (c1 c2 : ScenarioConfig) (pc1 pc2 : PortfolioConfig) (s1 s2 : ℕ)
    (hc : c1 = c2) (hpc : pc1 = pc2) (hs : s1 = s2) :
    runScenario ops w1 c1 s1 = runScenario ops w2 c2 s2 ∧
      runPortfolioScenario ops w1 pc1 s1 = runPortfolioScenario ops w2 pc2 s2 := by
  subst hc; subst hpc; subst hs
  exact ⟨rfl, rfl⟩

/-- Concrete float-ops instance for closed instances. -/
def opsW : FloatOps := ⟨qid, qid, qid⟩

/-- Concrete single-asset config for closed instances. -/
def cfgW : ScenarioConfig := ⟨[100, 101], 2, 3, "gaussian"⟩

/-- Concrete portfolio config for closed instances. -/
def pcfgW : PortfolioConfig := ⟨[[100, 101]], [1], 2, 3⟩

/-- Witness for C2: two runs with the same config and seed but
different ambient state agree. -/
theorem runs_pure_and_reproducible_witness :
    runScenario opsW 0 cfgW 42 = runScenario opsW 999 cfgW 42 ∧
      runPortfolioScenario opsW 0 pcfgW 42
        = runPortfolioScenario opsW 999 pcfgW 42 :=
  runs_pure_and_reproducible opsW 0 999 cfgW cfgW pcfgW pcfgW 42 42 rfl rfl rfl

/-- The `paths_sample` matrix of a run, or `[]` if the run failed. -/
def pathsSampleOf (ops : FloatOps) (world : ℕ) (cfg : ScenarioConfig)
    (seed : ℕ) : List (List ℚ) :=
  ((runScenario ops world cfg seed).map ScenarioResult.paths_sample).getD []

lemma buildPrices_length (expF : ℚ → ℚ) (paths : List (List ℚ))
    (startPrice : ℚ) : (buildPrices expF paths startPrice).length = paths.length := by
  simp [buildPrices]

lemma sampleGaussianPaths_length (mu sigma : ℚ) (horizon numPaths seed : ℕ) :
    (sampleGaussianPaths mu sigma horizon numPaths seed).length = numPaths := by
  simp [sampleGaussianPaths]

lemma sampleGaussianPaths_row_length {mu sigma : ℚ}
    {horizon numPaths seed : ℕ} {row : List ℚ}
    (h : row ∈ sampleGaussianPaths mu sigma horizon numPaths seed) :
    row.length = horizon := by
  obtain ⟨p, hp, rfl⟩ := List.mem_map.mp h
  simp

/-- C5: for every admissible config (at least one path, at least one
day, at least two price points) a `runScenario` run succeeds and its
`paths_sample` is a dense `[num_paths, horizon]` matrix — `num_paths`
rows, each of length `horizon`, with `num_paths ≥ 1` and `horizon ≥ 1`
— and indexing any row at any day `t < horizon` yields a defined
value.  Entries are rationals, which have no NaN. -/
theorem scenario_paths_shape (ops : FloatOps) (world : ℕ)
    (cfg : ScenarioConfig) (seed : ℕ)
    (h1 : 1 ≤ cfg.horizon) (h2 : 1 ≤ cfg.numPaths)
    (h3 : 2 ≤ cfg.prices.length) :
    (runScenario ops world cfg seed).isSome = true ∧
      (pathsSampleOf ops world cfg seed).length = cfg.numPaths ∧
      1 ≤ (pathsSampleOf ops world cfg seed).length ∧
      (∀ row ∈ pathsSampleOf ops world cfg seed, row.length = cfg.horizon) ∧
      ∀ row ∈ pathsSampleOf ops world cfg seed,
        ∀ t : ℕ, t < cfg.horizon → (row.get? t).isSome = true := by
  have hguard : ¬ (cfg.horizon = 0 ∨ cfg.numPaths = 0 ∨ cfg.prices.length < 2) := by
    omega
  have hps : pathsSampleOf ops world cfg seed
      = buildPrices ops.expF
          (sampleGaussianPaths (meanQ (logReturnsF ops.lnF cfg.prices))
            (ops.sqrtF (varQ (logReturnsF ops.lnF cfg.prices)))
            cfg.horizon cfg.numPaths seed)
          (cfg.prices.getLastD 0) := by
    rw [pathsSampleOf, runScenario, if_neg hguard]
    rfl
  have hrowlen : ∀ row ∈ pathsSampleOf ops world cfg seed,
      row.length = cfg.horizon := by
    intro row hrow
    rw [hps] at hrow
    obtain ⟨r0, hr0, rfl⟩ := List.mem_map.mp hrow
    rw [List.length_map, cumsum_length]
    exact sampleGaussianPaths_row_length hr0
  have hlen : (pathsSampleOf ops world cfg seed).length = cfg.numPaths := by
    rw [hps, buildPrices_length, sampleGaussianPaths_length]
  refine ⟨?_, hlen, by omega, hrowlen, ?_⟩
  · rw [runScenario, if_neg hguard]
    rfl
  · intro row hrow t ht
    have := hrowlen row hrow
    have htlen : t < row.length := by omega
    rw [List.get?_eq_get htlen]
    rfl

/-- Witness for C5 at the concrete config `cfgW` (3 paths, horizon 2,
two price points). -/
theorem scenario_paths_shape_witness :
    1 ≤ cfgW.horizon ∧ 1 ≤ cfgW.numPaths ∧ 2 ≤ cfgW.prices.length ∧
      (runScenario opsW 0 cfgW 42).isSome = true ∧
      (pathsSampleOf opsW 0 cfgW 42).length = cfgW.numPaths := by
  have h := scenario_paths_shape opsW 0 cfgW 42 (by norm_num [cfgW])
    (by norm_num [cfgW]) (by norm_num [cfgW])
  exact ⟨by norm_num [cfgW], by norm_num [cfgW], by norm_num [cfgW], h.1, h.2.1⟩

/-! ## Dashboard run lifecycle (C6) -/

/-- The possible outcomes of the dashboard's `fetch` to
`POST /api/simulate`: a network/parse failure (the `catch` arm), a
non-OK HTTP status (`!response.ok`, thrown as "Simulation failed"), or
a parsed result object. -/
inductive FetchOutcome where
  | netFail : String → FetchOutcome
  | badStatus : FetchOutcome
  | success : ScenarioResult → FetchOutcome

/-- Whether an outcome represents a failed stage. -/
def FetchOutcome.failed : FetchOutcome → Bool
  | .success _ => false
  | _ => true

/-- The dashboard component state touched by `runSimulation`:
`loading`, `error`, `results`. -/
structure UIState where
  loading : Bool
  error : Option String
  results : Option ScenarioResult

/-- `runSimulation` from src/unnamed/part_004 lines 70-92: set
`loading`, clear `error` and `results`, fetch; on a non-OK response
throw "Simulation failed"; on success store the parsed data in
`results`; on any caught error store its message in `error`; finally
clear `loading`. -/
def runSimulationUI (st : UIState) (o : FetchOutcome) : UIState :=
  let cleared : UIState := { loading := true, error := none, results := none }
  match o with
  | .success d => { cleared with loading := false, results := some d }
  | .badStatus => { cleared with loading := false, error := some "Simulation failed" }
  | .netFail m => { cleared with loading := false, error := some m }

/-- C6: for every run in which any stage fails (network failure or
non-OK backend response), no result object is produced for the caller
— `results` is `none` regardless of what it held before — and a
structured error message is set instead; only a fully successful run
stores a result. -/
theorem failed_run_yields_no_result (st : UIState) (o : FetchOutcome)
    (h : o.failed = true) :
    (runSimulationUI st o).results = none ∧
      ((runSimulationUI st o).error).isSome = true := by
  cases o with
  | success d => simp [FetchOutcome.failed] at h
  | badStatus => exact ⟨rfl, rfl⟩
  | netFail m => exact ⟨rfl, rfl⟩

/-- Witness for C6: a failed run starting from a state that still holds
a previous result ends with no result and an error set. -/
theorem failed_run_yields_no_result_witness :
    FetchOutcome.badStatus.failed = true ∧
      (runSimulationUI ⟨false, none, some ⟨[], [], [], 0, ""⟩⟩
        FetchOutcome.badStatus).results = none ∧
      ((runSimulationUI ⟨false, none, some ⟨[], [], [], 0, ""⟩⟩
        FetchOutcome.badStatus).error).isSome = true :=
  ⟨rfl,
    (failed_run_yields_no_result ⟨false, none, some ⟨[], [], [], 0, ""⟩⟩
      FetchOutcome.badStatus rfl).1,
    (failed_run_yields_no_result ⟨false, none, some ⟨[], [], [], 0, ""⟩⟩
      FetchOutcome.badStatus rfl).2⟩

end MSG
